import Mathlib

/-!
Verification of an Age-Partitioned Bloom Filter (APBF) implementation.

The filter keeps a bit array of `(k + l) * m` bits, viewed as `k + l` slices of
`m` bits each.  `p` is the physical index of the slice currently acting as
logical slice 0 (the head), `n` counts insertions absorbed by the current head
generation, and `g` is the generation capacity.  Insertion writes one bit into
each of the `k` newest logical slices; when `n ≥ g` at the start of an insert
the ring rotates: the oldest slice is cleared and becomes the new head.
Membership is a forward scan with backtracking looking for `k` consecutive
hits.  The default hash family is Kirsch-Mitzenmacher double hashing over two
64-bit hashes.

The bit array is modelled as a total function `Nat → Bool` (the source's
`bitvec` indexed by absolute bit position); machine integers are modelled as
`Nat`, with an explicit `% 2 ^ 64` in the hash computation where `u64`
wrap-around matters.  The generation capacity `g` is computed in the source by
a 64-bit floating-point evaluation of `floor(m * ln 2 / k)`; that
floating-point computation is not shallow-embedded, so `g` is carried as an
explicit construction parameter throughout and theorems quantify over it.
-/

namespace Apbf

/-- Model of `slice.set(h, true)`: the backing bit array with absolute bit
position `q` forced to `true`. -/
def setTrue (bits : Nat → Bool) (q : Nat) : Nat → Bool :=
  fun r => if r = q then true else bits r

/-- The APBF state: configuration `k`, `l`, `m`, derived generation capacity
`g`, insertion counter `n`, head position `p` and the backing bit array. -/
structure APBF where
  k : Nat
  l : Nat
  m : Nat
  g : Nat
  n : Nat
  p : Nat
  bits : Nat → Bool

/-- Model of the two-line position computation
`let pos = p + i; pos.checked_sub(n_slices).unwrap_or(pos)` shared by
`insert` and `contains`. -/
def slicePos (nSlices p i : Nat) : Nat :=
  if nSlices ≤ p + i then p + i - nSlices else p + i

/-- Physical index of the slice cleared by `shift`:
`p.checked_sub(1).unwrap_or(n_slices - 1)`. -/
def APBF.shiftPrev (st : APBF) : Nat :=
  if 1 ≤ st.p then st.p - 1 else st.k + st.l - 1

/-- Model of `APBF::shift`: clear the slice about to become the new head,
move `p` one step backwards through the ring and reset `n`. -/
def APBF.shift (st : APBF) : APBF :=
  { st with
    bits := fun q =>
      if st.shiftPrev * st.m ≤ q ∧ q < st.shiftPrev * st.m + st.m then false
      else st.bits q,
    p := if st.p = 0 then st.l + st.k - 1 else st.p - 1,
    n := 0 }

/-- The bit-setting loop of `APBF::insert`: for `i` in `0..t`, set bit
`hashes.get(pos)` of physical slice `pos = slicePos nSlices p i`. -/
def writeK (m p nSlices : Nat) (hs : Nat → Nat) (bits : Nat → Bool) :
    Nat → (Nat → Bool)
  | 0 => bits
  | t + 1 =>
    setTrue (writeK m p nSlices hs bits t)
      (slicePos nSlices p t * m + hs (slicePos nSlices p t))

/-- The part of `APBF::insert` after the rotation check: write the `k` probe
bits and increment `n`. -/
def APBF.insertAux (st : APBF) (hs : Nat → Nat) : APBF :=
  { st with
    bits := writeK st.m st.p (st.k + st.l) hs st.bits st.k,
    n := st.n + 1 }

/-- Model of `APBF::insert`.  A value is represented by its probe sequence
`hs : Nat → Nat` mapping a physical slice index to a bit position (the source
obtains it from `self.hashers.hash(value)`). -/
def APBF.insert (st : APBF) (hs : Nat → Nat) : APBF :=
  if st.g ≤ st.n then (st.shift).insertAux hs else st.insertAux hs

/-- Model of `APBF::with_hashers` minus the `debug_assert!` preconditions:
the fresh filter with all bits zero, `n = 0`, `p = 0`.  `g` is passed
explicitly (see the file comment). -/
def APBF.withHashers (k l m g : Nat) : APBF :=
  { k := k, l := l, m := m, g := g, n := 0, p := 0, bits := fun _ => false }

/-- Model of `APBF::with_hashers` including the three
`debug_assert!(k > 0)`, `debug_assert!(l > 0)`, `debug_assert!(m > 0)`
preconditions: `none` models the assertion failure. -/
def APBF.withHashersChecked (k l m g : Nat) : Option APBF :=
  if 0 < k ∧ 0 < l ∧ 0 < m then some (APBF.withHashers k l m g) else none

/-- A sequence of `j` insertions; the value inserted at step `t` has probe
sequence `hss t`. -/
def APBF.insertN (st : APBF) (hss : Nat → Nat → Nat) : Nat → APBF
  | 0 => st
  | j + 1 => (st.insertN hss j).insert (hss j)

/-- The probe read by the `contains` loop at cursor `i`: bit
`hashes.get(pos)` of physical slice `pos = slicePos (k+l) p i`. -/
def APBF.hitFn (st : APBF) (hs : Nat → Nat) (i : Nat) : Bool :=
  st.bits (slicePos (st.k + st.l) st.p i * st.m
    + hs (slicePos (st.k + st.l) st.p i))

/-- One iteration of the `contains` loop on state `(i, prev_count, count)`:
either continue with a new state (`Sum.inl`) or return (`Sum.inr`). -/
def scanStep (hit : Nat → Bool) (k : Nat) :
    Nat × Nat × Nat → Sum (Nat × Nat × Nat) Bool
  | (i, pc, c) =>
    if hit i then
      if pc + (c + 1) = k then Sum.inr true
      else Sum.inl (i + 1, pc, c + 1)
    else
      if i < k then Sum.inr false
      else Sum.inl (i - k, c, 0)

/-- The `contains` loop, run for at most `fuel` iterations (`none` means the
fuel ran out; `containsFuel` below is proved sufficient). -/
def containsLoop (hit : Nat → Bool) (k : Nat) :
    Nat → Nat × Nat × Nat → Option Bool
  | 0, _ => none
  | fuel + 1, s =>
    match scanStep hit k s with
    | Sum.inr b => some b
    | Sum.inl s2 => containsLoop hit k fuel s2

/-- Fuel sufficient for the `contains` loop from its initial state
`(l, 0, 0)`: one more than the bound `(k+1)*l + k` on the termination
measure `(k+1)*(i - count) + (k - count)`. -/
def APBF.containsFuel (st : APBF) : Nat :=
  (st.k + 1) * (st.l + 1) + st.k + 1

/-- Result of the `contains` loop (`none` only if the fuel were
insufficient, which `containsLoop_isSome` below rules out). -/
def APBF.containsO (st : APBF) (hs : Nat → Nat) : Option Bool :=
  containsLoop (st.hitFn hs) st.k st.containsFuel (st.l, 0, 0)

/-- Model of `APBF::contains`: run the loop from `i = l`,
`prev_count = 0`, `count = 0`. -/
def APBF.contains (st : APBF) (hs : Nat → Nat) : Bool :=
  (st.containsO hs).getD false

/-- Model of `APBF::window`. -/
def APBF.window (st : APBF) : Nat := st.l * st.g

/-- Model of `APBF::slack`. -/
def APBF.slack (st : APBF) : Nat := st.k * st.g

/-- Model of `APBF::generation`. -/
def APBF.generation (st : APBF) : Nat := st.g

/-- Population count of physical slice `s` (`slice.count_ones()` over the
`m` bits at positions `[s*m, s*m + m)`). -/
def APBF.sliceOnes (st : APBF) (s : Nat) : Nat :=
  ((Finset.range st.m).filter (fun h => st.bits (s * st.m + h) = true)).card

/-- Population count of the whole backing bit array of `(k+l)*m` bits. -/
def APBF.totalOnes (st : APBF) : Nat :=
  ((Finset.range ((st.k + st.l) * st.m)).filter (fun q => st.bits q = true)).card

/-- Modulus of 64-bit wrap-around arithmetic. -/
def u64Mod : Nat := 2 ^ 64

/-- Model of `KMHashes`: the two reduced hashes and the modulus `p` (the
slice width `m`). -/
structure KMHashes where
  x1 : Nat
  x2 : Nat
  p : Nat

/-- Model of `KMHashes::get`: `(x1 + i * x2) % p` computed in wrapping
`u64` arithmetic, i.e. the multiplication and addition are reduced
`mod 2^64` before the final `% p`. -/
def KMHashes.get (h : KMHashes) (i : Nat) : Nat :=
  (h.x1 + i * h.x2 % u64Mod) % u64Mod % h.p

/-- Model of `KMHashers::hash`: `h1` and `h2` stand for the two inner
64-bit hash values `h1.finish()` and `h2.finish()` of the input value. -/
def kmHash (p h1 h2 : Nat) : KMHashes :=
  { x1 := h1 % p, x2 := h2 % p, p := p }

/-! Bounds-checked variants.  The source indexes the bit array through
`get_slice` / `get_slice_mut` range slicing, `slice.set(h, true)` and
`slice.get(h).unwrap()`, all of which panic when out of bounds.  The checked
variants below return `none` exactly where such a panic would occur; proving
them equal to `some` of the unchecked models certifies in-bounds access. -/

/-- Bounds-checked `writeK`: a write to a slice index `≥ k + l` or a bit
offset `≥ m` is a panic (`none`). -/
def writeKC (m p nSlices : Nat) (hs : Nat → Nat) (bits : Nat → Bool) :
    Nat → Option (Nat → Bool)
  | 0 => some bits
  | t + 1 =>
    (writeKC m p nSlices hs bits t).bind fun b =>
      if slicePos nSlices p t < nSlices ∧ hs (slicePos nSlices p t) < m then
        some (setTrue b (slicePos nSlices p t * m + hs (slicePos nSlices p t)))
      else none

/-- Bounds-checked `insertAux`. -/
def APBF.insertAuxC (st : APBF) (hs : Nat → Nat) : Option APBF :=
  (writeKC st.m st.p (st.k + st.l) hs st.bits st.k).map fun b =>
    { st with bits := b, n := st.n + 1 }

/-- Bounds-checked `insert`. -/
def APBF.insertC (st : APBF) (hs : Nat → Nat) : Option APBF :=
  if st.g ≤ st.n then (st.shift).insertAuxC hs else st.insertAuxC hs

/-- Bounds-checked probe of the `contains` loop: `none` models the panic of
an out-of-range slice index or bit offset. -/
def APBF.hitC (st : APBF) (hs : Nat → Nat) (i : Nat) : Option Bool :=
  if slicePos (st.k + st.l) st.p i < st.k + st.l
      ∧ hs (slicePos (st.k + st.l) st.p i) < st.m then
    some (st.hitFn hs i)
  else none

/-- Bounds-checked `contains` loop. -/
def containsLoopC (st : APBF) (hs : Nat → Nat) :
    Nat → Nat × Nat × Nat → Option Bool
  | 0, _ => none
  | fuel + 1, (i, pc, c) =>
    (st.hitC hs i).bind fun hb =>
      if hb then
        if pc + (c + 1) = st.k then some true
        else containsLoopC st hs fuel (i + 1, pc, c + 1)
      else
        if i < st.k then some false
        else containsLoopC st hs fuel (i - st.k, c, 0)

/-- Bounds-checked `contains` (the value `some b` means the scan finished
without any out-of-bounds access and returned `b`). -/
def APBF.containsOC (st : APBF) (hs : Nat → Nat) : Option Bool :=
  containsLoopC st hs st.containsFuel (st.l, 0, 0)

/-- A filter state exercising the `contains` scan: `k = 3`, `l = 7`,
`m = 1`, `p = 0`, with the probe bits of physical slices 7 and 8 set (such
a state is reachable up to the choice of set bits; the scan is defined for
every bit-array contents). -/
def scanEx : APBF :=
  { k := 3, l := 7, m := 1, g := 0, n := 0, p := 0,
    bits := fun q => q == 7 || q == 8 }

/-- State of a fresh `(k, l, m)` filter with generation capacity `g` after
inserting a tracked value with probe sequence `hsv` and then `j` further
values with probe sequences `hss 0, …, hss (j-1)`. -/
def afterV (k l m g : Nat) (hsv : Nat → Nat) (hss : Nat → Nat → Nat) (j : Nat) :
    APBF :=
  ((APBF.withHashers k l m g).insert hsv).insertN hss j

/-! Basic lemmas about the bit array primitives. -/

theorem setTrue_self (bits : Nat → Bool) (q : Nat) : setTrue bits q q = true := by
  simp [setTrue]

theorem setTrue_mono {bits : Nat → Bool} {r : Nat} (q : Nat)
    (h : bits r = true) : setTrue bits q r = true := by
  unfold setTrue
  split <;> simp [h]

theorem setTrue_ne {bits : Nat → Bool} {q r : Nat} (h : r ≠ q) :
    setTrue bits q r = bits r := by
  simp [setTrue, h]

theorem writeK_mono {m p nSlices : Nat} {hs : Nat → Nat} {bits : Nat → Bool}
    {r : Nat} (h : bits r = true) :
    ∀ t, writeK m p nSlices hs bits t r = true := by
  intro t
  induction t with
  | zero => exact h
  | succ t ih => exact setTrue_mono _ ih

theorem writeK_hit (m p nSlices : Nat) (hs : Nat → Nat) (bits : Nat → Bool) :
    ∀ t i, i < t →
      writeK m p nSlices hs bits t
        (slicePos nSlices p i * m + hs (slicePos nSlices p i)) = true := by
  intro t
  induction t with
  | zero => intro i hi; omega
  | succ t ih =>
    intro i hi
    rcases Nat.lt_succ_iff_lt_or_eq.mp hi with hlt | heq
    · exact setTrue_mono _ (ih i hlt)
    · subst heq; exact setTrue_self _ _

theorem writeK_other (m p nSlices : Nat) (hs : Nat → Nat) (bits : Nat → Bool) :
    ∀ t r,
      (∀ i, i < t →
        r ≠ slicePos nSlices p i * m + hs (slicePos nSlices p i)) →
      writeK m p nSlices hs bits t r = bits r := by
  intro t
  induction t with
  | zero => intro r _; rfl
  | succ t ih =>
    intro r hr
    unfold writeK
    rw [setTrue_ne (hr t (Nat.lt_succ_self t)), ih r]
    intro i hi
    exact hr i (Nat.lt_succ_of_lt hi)

theorem slicePos_lt {nSlices p i : Nat} (hp : p < nSlices) (hi : i < nSlices) :
    slicePos nSlices p i < nSlices := by
  unfold slicePos
  split <;> omega

/-- Uniqueness of the slice/offset decomposition of an absolute bit
position: two in-slice bits coincide only if slice and offset coincide. -/
theorem slot_eq {m a b c d : Nat} (hb : b < m) (hd : d < m)
    (h : a * m + b = c * m + d) : a = c ∧ b = d := by
  have hm : 0 < m := by omega
  have ha : (a * m + b) / m = a := by
    rw [Nat.mul_comm a m, Nat.mul_add_div hm, Nat.div_eq_of_lt hb, Nat.add_zero]
  have hc : (c * m + d) / m = c := by
    rw [Nat.mul_comm c m, Nat.mul_add_div hm, Nat.div_eq_of_lt hd, Nat.add_zero]
  have hac : a = c := by rw [← ha, ← hc, h]
  subst hac
  exact ⟨rfl, by omega⟩

/-! Field lemmas for `shift`, `insert`, `insertN`. -/

theorem shift_k (st : APBF) : (st.shift).k = st.k := rfl
theorem shift_l (st : APBF) : (st.shift).l = st.l := rfl
theorem shift_m (st : APBF) : (st.shift).m = st.m := rfl
theorem shift_g (st : APBF) : (st.shift).g = st.g := rfl
theorem shift_n (st : APBF) : (st.shift).n = 0 := rfl

theorem shift_p (st : APBF) :
    (st.shift).p = if st.p = 0 then st.l + st.k - 1 else st.p - 1 := rfl

theorem shift_bits_inside {st : APBF} {q : Nat}
    (h1 : st.shiftPrev * st.m ≤ q) (h2 : q < st.shiftPrev * st.m + st.m) :
    (st.shift).bits q = false := by
  show (if st.shiftPrev * st.m ≤ q ∧ q < st.shiftPrev * st.m + st.m then false
      else st.bits q) = false
  rw [if_pos ⟨h1, h2⟩]

theorem shift_bits_outside {st : APBF} {q : Nat}
    (h : q < st.shiftPrev * st.m ∨ st.shiftPrev * st.m + st.m ≤ q) :
    (st.shift).bits q = st.bits q := by
  show (if st.shiftPrev * st.m ≤ q ∧ q < st.shiftPrev * st.m + st.m then false
      else st.bits q) = st.bits q
  rw [if_neg (by omega)]

theorem insertAux_k (st : APBF) (hs : Nat → Nat) : (st.insertAux hs).k = st.k := rfl
theorem insertAux_l (st : APBF) (hs : Nat → Nat) : (st.insertAux hs).l = st.l := rfl
theorem insertAux_m (st : APBF) (hs : Nat → Nat) : (st.insertAux hs).m = st.m := rfl
theorem insertAux_g (st : APBF) (hs : Nat → Nat) : (st.insertAux hs).g = st.g := rfl
theorem insertAux_n (st : APBF) (hs : Nat → Nat) : (st.insertAux hs).n = st.n + 1 := rfl
theorem insertAux_p (st : APBF) (hs : Nat → Nat) : (st.insertAux hs).p = st.p := rfl

theorem insert_k (st : APBF) (hs : Nat → Nat) : (st.insert hs).k = st.k := by
  unfold APBF.insert
  split <;> rfl

theorem insert_l (st : APBF) (hs : Nat → Nat) : (st.insert hs).l = st.l := by
  unfold APBF.insert
  split <;> rfl

theorem insert_m (st : APBF) (hs : Nat → Nat) : (st.insert hs).m = st.m := by
  unfold APBF.insert
  split <;> rfl

theorem insert_g (st : APBF) (hs : Nat → Nat) : (st.insert hs).g = st.g := by
  unfold APBF.insert
  split <;> rfl

theorem insert_n (st : APBF) (hs : Nat → Nat) :
    (st.insert hs).n = (if st.g ≤ st.n then 0 else st.n) + 1 := by
  unfold APBF.insert
  split <;> rfl

theorem insert_p (st : APBF) (hs : Nat → Nat) :
    (st.insert hs).p = if st.g ≤ st.n then (st.shift).p else st.p := by
  unfold APBF.insert
  split <;> rfl

theorem insertN_k (st : APBF) (hss : Nat → Nat → Nat) :
    ∀ j, (st.insertN hss j).k = st.k := by
  intro j
  induction j with
  | zero => rfl
  | succ j ih => rw [APBF.insertN, insert_k, ih]

theorem insertN_l (st : APBF) (hss : Nat → Nat → Nat) :
    ∀ j, (st.insertN hss j).l = st.l := by
  intro j
  induction j with
  | zero => rfl
  | succ j ih => rw [APBF.insertN, insert_l, ih]

theorem insertN_m (st : APBF) (hss : Nat → Nat → Nat) :
    ∀ j, (st.insertN hss j).m = st.m := by
  intro j
  induction j with
  | zero => rfl
  | succ j ih => rw [APBF.insertN, insert_m, ih]

theorem insertN_g (st : APBF) (hss : Nat → Nat → Nat) :
    ∀ j, (st.insertN hss j).g = st.g := by
  intro j
  induction j with
  | zero => rfl
  | succ j ih => rw [APBF.insertN, insert_g, ih]

/-! Division/modulus helpers for tracking the rotation count `j / g` and
the in-generation counter `j % g` across one insertion. -/

theorem div_mod_succ_rollover {j g : Nat} (hg : 0 < g) (h : j % g + 1 = g) :
    (j + 1) / g = j / g + 1 ∧ (j + 1) % g = 0 := by
  have hdm := Nat.div_add_mod j g
  have hj1 : j + 1 = g * (j / g + 1) := by
    rw [Nat.mul_add, Nat.mul_one]
    omega
  constructor
  · rw [hj1, Nat.mul_div_cancel_left _ hg]
  · rw [hj1, Nat.mul_mod_right]

theorem div_mod_succ_stay {j g : Nat} (hg : 0 < g) (h : j % g + 1 < g) :
    (j + 1) / g = j / g ∧ (j + 1) % g = j % g + 1 := by
  have hdm := Nat.div_add_mod j g
  have hj1 : j + 1 = j % g + 1 + g * (j / g) := by omega
  constructor
  · rw [hj1, Nat.add_mul_div_left _ _ hg, Nat.div_eq_of_lt h, Nat.zero_add]
  · rw [hj1, Nat.add_mul_mod_self_left, Nat.mod_eq_of_lt h]

/-! The `contains` loop: termination, completeness and soundness. -/

theorem containsLoop_succ (hit : Nat → Bool) (k fuel : Nat) (s : Nat × Nat × Nat) :
    containsLoop hit k (fuel + 1) s =
      match scanStep hit k s with
      | Sum.inr b => some b
      | Sum.inl s2 => containsLoop hit k fuel s2 := rfl

theorem scanStep_eq (hit : Nat → Bool) (k i pc c : Nat) :
    scanStep hit k (i, pc, c) =
      if hit i then
        if pc + (c + 1) = k then Sum.inr true
        else Sum.inl (i + 1, pc, c + 1)
      else
        if i < k then Sum.inr false
        else Sum.inl (i - k, c, 0) := rfl

/-- Fuel sufficiency for the `contains` loop.  The loop invariants are
`count ≤ i` and `prev_count + count < k`; the measure
`(k+1)*(i - count) + (k - count)` strictly decreases at every
continuing iteration. -/
theorem containsLoop_isSome (hit : Nat → Bool) (k : Nat) (hk : 0 < k) :
    ∀ fuel i pc c, c ≤ i → pc + c < k →
      (k + 1) * (i - c) + (k - c) < fuel →
      (containsLoop hit k fuel (i, pc, c)).isSome = true := by
  intro fuel
  induction fuel with
  | zero => intro i pc c _ _ hm; omega
  | succ fuel ih =>
    intro i pc c hci hpck hm
    rw [containsLoop_succ, scanStep_eq]
    by_cases hhit : hit i = true
    · rw [if_pos hhit]
      by_cases hret : pc + (c + 1) = k
      · rw [if_pos hret]; rfl
      · rw [if_neg hret]
        apply ih (i + 1) pc (c + 1) (by omega) (by omega)
        have he : i + 1 - (c + 1) = i - c := by omega
        rw [he]
        have hck : c < k := by omega
        set A := (k + 1) * (i - c) with hA
        omega
    · rw [if_neg (by simp [hhit])]
      by_cases hik : i < k
      · rw [if_pos hik]; rfl
      · rw [if_neg hik]
        apply ih (i - k) c 0 (Nat.zero_le _) (by omega)
        simp only [Nat.sub_zero]
        have hki : k ≤ i := by omega
        have hck : c < k := by omega
        have hsplit : i - c = (i - k) + (k - c) := by omega
        have hexp : (k + 1) * (i - c) = (k + 1) * (i - k) + (k + 1) * (k - c) := by
          rw [hsplit, Nat.mul_add]
        have hge : k + 1 ≤ (k + 1) * (k - c) :=
          Nat.le_mul_of_pos_right _ (by omega)
        set B := (k + 1) * (i - k) with hB
        set C := (k + 1) * (k - c) with hC
        omega

/-- Completeness core: if logical slices `[a, a+k)` all probe to set bits
and the cursor never drops below `a`, the loop cannot return `false`. -/
theorem containsLoop_ne_false (hit : Nat → Bool) (k a : Nat)
    (hblock : ∀ t, t < k → hit (a + t) = true) :
    ∀ fuel i pc c, a ≤ i →
      containsLoop hit k fuel (i, pc, c) ≠ some false := by
  intro fuel
  induction fuel with
  | zero => intro i pc c _ h; simp [containsLoop] at h
  | succ fuel ih =>
    intro i pc c hai
    rw [containsLoop_succ, scanStep_eq]
    by_cases hhit : hit i = true
    · rw [if_pos hhit]
      by_cases hret : pc + (c + 1) = k
      · rw [if_pos hret]; simp
      · rw [if_neg hret]
        exact ih (i + 1) pc (c + 1) (by omega)
    · rw [if_neg (by simp [hhit])]
      have hout : ¬ (a ≤ i ∧ i < a + k) := by
        intro ⟨h1, h2⟩
        have := hblock (i - a) (by omega)
        rw [show a + (i - a) = i by omega] at this
        exact hhit this
      by_cases hik : i < k
      · omega
      · rw [if_neg hik]
        exact ih (i - k) c 0 (by omega)

/-- Soundness core: a `true` result means some window of `k` consecutive
logical slices starting at `a ≤ l` probes entirely to set bits.  The
invariants say: slices `[i-c, i)` are the current run of hits, slices
`[(i-c) + (k-pc), (i-c) + k)` are the saved run of `prev_count` hits, the
run base `i - c` never exceeds `l`, and `prev_count + count < k`. -/
theorem containsLoop_sound (hit : Nat → Bool) (k l : Nat) :
    ∀ fuel i pc c,
      c ≤ i → pc + c < k → i - c ≤ l →
      (∀ t, i - c ≤ t → t < i → hit t = true) →
      (∀ t, (i - c) + (k - pc) ≤ t → t < (i - c) + k → hit t = true) →
      containsLoop hit k fuel (i, pc, c) = some true →
      ∃ a, a ≤ l ∧ ∀ t, t < k → hit (a + t) = true := by
  intro fuel
  induction fuel with
  | zero => intro i pc c _ _ _ _ _ h; simp [containsLoop] at h
  | succ fuel ih =>
    intro i pc c hci hpck hbase hrun hsaved hloop
    rw [containsLoop_succ, scanStep_eq] at hloop
    by_cases hhit : hit i = true
    · rw [if_pos hhit] at hloop
      by_cases hret : pc + (c + 1) = k
      · refine ⟨i - c, hbase, ?_⟩
        intro t ht
        by_cases htc : t ≤ c
        · rcases Nat.lt_or_ge t c with htlt | hteq
          · exact hrun (i - c + t) (by omega) (by omega)
          · have : i - c + t = i := by omega
            rw [this]; exact hhit
        · exact hsaved (i - c + t) (by omega) (by omega)
      · rw [if_neg hret] at hloop
        apply ih (i + 1) pc (c + 1) (by omega) (by omega)
          (by omega) ?_ ?_ hloop
        · intro t ht1 ht2
          rcases Nat.lt_or_ge t i with htlt | hteq
          · exact hrun t (by omega) htlt
          · have : t = i := by omega
            rw [this]; exact hhit
        · intro t ht1 ht2
          exact hsaved t (by omega) (by omega)
    · rw [if_neg (by simp [hhit])] at hloop
      by_cases hik : i < k
      · rw [if_pos hik] at hloop
        simp at hloop
      · rw [if_neg hik] at hloop
        apply ih (i - k) c 0 (Nat.zero_le _) (by omega) (by omega) ?_ ?_ hloop
        · intro t ht1 ht2; omega
        · intro t ht1 ht2
          exact hrun t (by omega) (by omega)

/-- The measure of the initial loop state is below `containsFuel`. -/
theorem containsFuel_large (st : APBF) :
    (st.k + 1) * (st.l - 0) + (st.k - 0) < st.containsFuel := by
  unfold APBF.containsFuel
  simp only [Nat.sub_zero]
  have h : (st.k + 1) * (st.l + 1) = (st.k + 1) * st.l + (st.k + 1) := by
    rw [Nat.mul_succ]
  set A := (st.k + 1) * st.l with hA
  omega

/-- If the filter is valid (`k ≥ 1`), the scan always finishes. -/
theorem containsO_isSome (st : APBF) (hs : Nat → Nat) (hk : 0 < st.k) :
    (st.containsO hs).isSome = true := by
  unfold APBF.containsO
  apply containsLoop_isSome _ _ hk _ _ _ _ (Nat.zero_le _) (by omega)
  have := containsFuel_large st
  omega

/-- Completeness of `contains`: a block of `k` consecutive logical hits
starting at `a ≤ l` forces a positive answer. -/
theorem contains_true_of_block (st : APBF) (hs : Nat → Nat) (a : Nat)
    (hk : 0 < st.k) (hal : a ≤ st.l)
    (hblock : ∀ t, t < st.k → st.hitFn hs (a + t) = true) :
    st.contains hs = true := by
  have hsome := containsO_isSome st hs hk
  unfold APBF.contains
  rcases h : st.containsO hs with _ | b
  · rw [h] at hsome; simp at hsome
  · have hne := containsLoop_ne_false (st.hitFn hs) st.k a hblock
      st.containsFuel st.l 0 0 hal
    unfold APBF.containsO at h
    rcases b with _ | _
    · exact absurd h hne
    · simp

/-- Soundness of `contains`: a positive answer exhibits a block of `k`
consecutive logical hits starting at some `a ≤ l`. -/
theorem contains_sound (st : APBF) (hs : Nat → Nat) (hk : 0 < st.k)
    (h : st.contains hs = true) :
    ∃ a, a ≤ st.l ∧ ∀ t, t < st.k → st.hitFn hs (a + t) = true := by
  have hsome := containsO_isSome st hs hk
  unfold APBF.contains at h
  rcases hO : st.containsO hs with _ | b
  · rw [hO] at hsome; simp at hsome
  · rw [hO] at h
    simp at h
    subst h
    unfold APBF.containsO at hO
    exact containsLoop_sound (st.hitFn hs) st.k st.l st.containsFuel st.l 0 0
      (Nat.zero_le _) (by omega) (by omega)
      (by intro t h1 h2; omega) (by intro t h1 h2; omega) hO

/-! Immediate recall: right after inserting a value, `contains` finds the
`k` freshly written probe bits at logical slices `[0, k)`. -/

theorem insertAux_hitFn (st : APBF) (hs : Nat → Nat) (t : Nat) (ht : t < st.k) :
    (st.insertAux hs).hitFn hs t = true := by
  unfold APBF.hitFn
  exact writeK_hit st.m st.p (st.k + st.l) hs st.bits st.k t ht

theorem insert_contains_self (st : APBF) (hs : Nat → Nat) (hk : 0 < st.k) :
    (st.insert hs).contains hs = true := by
  apply contains_true_of_block _ hs 0 (by rw [insert_k]; exact hk) (Nat.zero_le _)
  intro t ht
  rw [insert_k] at ht
  rw [Nat.zero_add]
  unfold APBF.insert
  by_cases hro : st.g ≤ st.n
  · rw [if_pos hro]
    exact insertAux_hitFn st.shift hs t ht
  · rw [if_neg hro]
    exact insertAux_hitFn st hs t ht

/-! The trace of an empty filter receiving one tracked value `v` (probe
sequence `hsv`) followed by `j` arbitrary insertions (`afterV` above). -/

theorem afterV_k (k l m g : Nat) (hsv : Nat → Nat) (hss : Nat → Nat → Nat)
    (j : Nat) : (afterV k l m g hsv hss j).k = k := by
  unfold afterV
  rw [insertN_k, insert_k]
  rfl

theorem afterV_l (k l m g : Nat) (hsv : Nat → Nat) (hss : Nat → Nat → Nat)
    (j : Nat) : (afterV k l m g hsv hss j).l = l := by
  unfold afterV
  rw [insertN_l, insert_l]
  rfl

theorem afterV_m (k l m g : Nat) (hsv : Nat → Nat) (hss : Nat → Nat → Nat)
    (j : Nat) : (afterV k l m g hsv hss j).m = m := by
  unfold afterV
  rw [insertN_m, insert_m]
  rfl

theorem afterV_g (k l m g : Nat) (hsv : Nat → Nat) (hss : Nat → Nat → Nat)
    (j : Nat) : (afterV k l m g hsv hss j).g = g := by
  unfold afterV
  rw [insertN_g, insert_g]
  rfl

/-- Shape of the head position after `r` rotations starting from `p = 0`. -/
theorem pShape {k l : Nat} (r : Nat) (hr : r ≤ k + l) (hkl : 0 < k + l) :
    (k + l - r) % (k + l) = if r = 0 then 0 else k + l - r := by
  by_cases h : r = 0
  · rw [if_pos h, h, Nat.sub_zero, Nat.mod_self]
  · rw [if_neg h]
    exact Nat.mod_eq_of_lt (by omega)

/-- Evolution of the head `p` and the counter `n` after the tracked insert
plus `j` further insertions (for `g ≥ 1`): exactly `j / g` rotations have
happened, so `p = (k + l - j / g) % (k + l)` and `n = j % g + 1`. -/
theorem afterV_inv (k l m g : Nat) (hg : 0 < g) (hsv : Nat → Nat)
    (hss : Nat → Nat → Nat) :
    ∀ j, j ≤ (l + k) * g →
      (afterV k l m g hsv hss j).p = (k + l - j / g) % (k + l) ∧
      (afterV k l m g hsv hss j).n = j % g + 1 := by
  intro j
  induction j with
  | zero =>
    intro _
    have hnr : ¬ ((APBF.withHashers k l m g).g ≤ (APBF.withHashers k l m g).n) := by
      show ¬ (g ≤ 0)
      omega
    constructor
    · show ((APBF.withHashers k l m g).insert hsv).p = _
      rw [insert_p, if_neg hnr]
      show 0 = (k + l - 0 / g) % (k + l)
      rw [Nat.zero_div, Nat.sub_zero, Nat.mod_self]
    · show ((APBF.withHashers k l m g).insert hsv).n = _
      rw [insert_n, if_neg hnr]
      show 0 + 1 = 0 % g + 1
      rw [Nat.zero_mod]
  | succ j ih =>
    intro hj1
    have hj : j ≤ (l + k) * g := by omega
    obtain ⟨hp, hn⟩ := ih hj
    have hjlt : j < (l + k) * g := by omega
    have hrlt : j / g < l + k := (Nat.div_lt_iff_lt_mul hg).mpr hjlt
    have hmod : j % g < g := Nat.mod_lt _ hg
    have hstg : (afterV k l m g hsv hss j).g = g := afterV_g k l m g hsv hss j
    have hstk : (afterV k l m g hsv hss j).k = k := afterV_k k l m g hsv hss j
    have hstl : (afterV k l m g hsv hss j).l = l := afterV_l k l m g hsv hss j
    have hstep : afterV k l m g hsv hss (j + 1)
        = (afterV k l m g hsv hss j).insert (hss j) := rfl
    by_cases hro : j % g + 1 = g
    · obtain ⟨hdiv, hmod'⟩ := div_mod_succ_rollover hg hro
      have hcond : (afterV k l m g hsv hss j).g ≤ (afterV k l m g hsv hss j).n := by
        rw [hstg, hn]
        exact Nat.le_of_eq hro.symm
      constructor
      · rw [hstep, insert_p, if_pos hcond, shift_p, hdiv]
        obtain ⟨r, hrd⟩ : ∃ r, j / g = r := ⟨_, rfl⟩
        rw [hrd] at hp hrlt ⊢
        have h0kl : 0 < k + l := by omega
        rw [@pShape k l (r + 1) (by omega) h0kl]
        rw [if_neg (show ¬ (r + 1 = 0) by omega)]
        rw [hp, @pShape k l r (by omega) h0kl]
        by_cases hr0 : r = 0
        · rw [if_pos hr0, if_pos rfl, hr0, hstl, hstk]
          omega
        · rw [if_neg hr0, if_neg (show ¬ (k + l - r = 0) by omega)]
          omega
      · rw [hstep, insert_n, if_pos hcond, hmod']
    · have hlt : j % g + 1 < g := Nat.lt_of_le_of_ne (Nat.succ_le_of_lt hmod) hro
      obtain ⟨hdiv, hmod'⟩ := div_mod_succ_stay hg hlt
      have hcond : ¬ ((afterV k l m g hsv hss j).g ≤ (afterV k l m g hsv hss j).n) := by
        rw [hstg, hn]
        exact Nat.not_le.mpr hlt
      constructor
      · rw [hstep, insert_p, if_neg hcond, hdiv, hp]
      · rw [hstep, insert_n, if_neg hcond, hn, hmod']

/-- Within the window (`j ≤ l * g`) every rotation clears a physical slice
of index `≥ k`, so the tracked value's bits in slices `[0, k)` survive. -/
theorem afterV_vbits (k l m g : Nat) (hk : 0 < k) (hl : 0 < l) (hg : 0 < g)
    (hsv : Nat → Nat) (hbv : ∀ s, hsv s < m) (hss : Nat → Nat → Nat) :
    ∀ j, j ≤ l * g → ∀ s, s < k →
      (afterV k l m g hsv hss j).bits (s * m + hsv s) = true := by
  intro j
  induction j with
  | zero =>
    intro _ s hs
    show ((APBF.withHashers k l m g).insert hsv).bits _ = true
    unfold APBF.insert
    rw [if_neg (show ¬ ((APBF.withHashers k l m g).g ≤ (APBF.withHashers k l m g).n)
      from by show ¬ (g ≤ 0); omega)]
    have hpos : slicePos (k + l) 0 s = s := by
      unfold slicePos
      split <;> omega
    have hset := writeK_hit m 0 (k + l) hsv (fun _ => false) k s hs
    rw [hpos] at hset
    exact hset
  | succ j ih =>
    intro hj1 s hs
    have hj : j ≤ l * g := by omega
    have hvb := ih hj s hs
    have hjlk : j ≤ (l + k) * g :=
      le_trans hj (Nat.mul_le_mul_right g (by omega))
    obtain ⟨hp, hn⟩ := afterV_inv k l m g hg hsv hss j hjlk
    have hstg : (afterV k l m g hsv hss j).g = g := afterV_g k l m g hsv hss j
    have hstk : (afterV k l m g hsv hss j).k = k := afterV_k k l m g hsv hss j
    have hstl : (afterV k l m g hsv hss j).l = l := afterV_l k l m g hsv hss j
    have hstm : (afterV k l m g hsv hss j).m = m := afterV_m k l m g hsv hss j
    have hmod : j % g < g := Nat.mod_lt _ hg
    have hstep : afterV k l m g hsv hss (j + 1)
        = (afterV k l m g hsv hss j).insert (hss j) := rfl
    rw [hstep]
    unfold APBF.insert
    by_cases hro : (afterV k l m g hsv hss j).g ≤ (afterV k l m g hsv hss j).n
    · rw [if_pos hro]
      have hge : g ≤ j % g + 1 := by
        have hro2 := hro
        rw [hstg, hn] at hro2
        exact hro2
      have hroll : j % g + 1 = g := Nat.le_antisymm (Nat.succ_le_of_lt hmod) hge
      have hr1 : j / g + 1 ≤ l := by
        have h1 : (j + 1) / g ≤ l := by
          have h2 : (j + 1) / g ≤ l * g / g := Nat.div_le_div_right (by omega)
          rwa [Nat.mul_div_cancel _ hg] at h2
        rw [(div_mod_succ_rollover hg hroll).1] at h1
        exact h1
      obtain ⟨r, hrd⟩ : ∃ r, j / g = r := ⟨_, rfl⟩
      rw [hrd] at hp hr1
      have hprev : k ≤ (afterV k l m g hsv hss j).shiftPrev := by
        unfold APBF.shiftPrev
        rw [hp, @pShape k l r (by omega) (by omega), hstk, hstl]
        by_cases hr0 : r = 0
        · rw [if_pos hr0]
          rw [if_neg (show ¬ (1 ≤ (0 : Nat)) by omega)]
          omega
        · rw [if_neg hr0]
          rw [if_pos (show 1 ≤ k + l - r by omega)]
          omega
      have hout : s * m + hsv s <
          (afterV k l m g hsv hss j).shiftPrev * (afterV k l m g hsv hss j).m
          ∨ (afterV k l m g hsv hss j).shiftPrev * (afterV k l m g hsv hss j).m
              + (afterV k l m g hsv hss j).m ≤ s * m + hsv s := by
        left
        have h1 : s * m + hsv s < (s + 1) * m := by
          have := hbv s
          rw [Nat.succ_mul]
          omega
        have h2 : (s + 1) * m ≤ k * m := Nat.mul_le_mul_right m (by omega)
        have h3 : k * m ≤ (afterV k l m g hsv hss j).shiftPrev * m :=
          Nat.mul_le_mul_right m hprev
        rw [hstm]
        omega
      have hshift : ((afterV k l m g hsv hss j).shift).bits (s * m + hsv s) = true := by
        rw [shift_bits_outside hout]
        exact hvb
      exact writeK_mono hshift _
    · rw [if_neg hro]
      exact writeK_mono hvb _

theorem insertAux_bits (st : APBF) (hs : Nat → Nat) :
    (st.insertAux hs).bits = writeK st.m st.p (st.k + st.l) hs st.bits st.k := rfl

/-- Once a slice has been cleared by a rotation (`k + l ≤ s + j / g` says
slice `s` was already recycled), the tracked value's probe bit in it stays
clear, provided the later insertions never probe the tracked value's exact
bit positions. -/
theorem afterV_cleared (k l m g : Nat) (hl : 0 < l) (hg : 0 < g)
    (hsv : Nat → Nat) (hbv : ∀ s, hsv s < m)
    (hss : Nat → Nat → Nat) (hbss : ∀ t s, hss t s < m)
    (hcol : ∀ t s, hss t s ≠ hsv s) :
    ∀ j, j ≤ (l + k) * g → ∀ s, s < k + l → k + l ≤ s + j / g →
      (afterV k l m g hsv hss j).bits (s * m + hsv s) = false := by
  intro j
  induction j with
  | zero =>
    intro _ s hs1 hs2
    rw [Nat.zero_div] at hs2
    omega
  | succ j ih =>
    intro hj1 s hskl hsold
    have hj : j ≤ (l + k) * g := by omega
    obtain ⟨hp, hn⟩ := afterV_inv k l m g hg hsv hss j hj
    have hjlt : j < (l + k) * g := by omega
    have hrlt : j / g < l + k := (Nat.div_lt_iff_lt_mul hg).mpr hjlt
    have hmod : j % g < g := Nat.mod_lt _ hg
    have hstg : (afterV k l m g hsv hss j).g = g := afterV_g k l m g hsv hss j
    have hstk : (afterV k l m g hsv hss j).k = k := afterV_k k l m g hsv hss j
    have hstl : (afterV k l m g hsv hss j).l = l := afterV_l k l m g hsv hss j
    have hstm : (afterV k l m g hsv hss j).m = m := afterV_m k l m g hsv hss j
    have hstep : afterV k l m g hsv hss (j + 1)
        = (afterV k l m g hsv hss j).insert (hss j) := rfl
    have hnw : ∀ p1 i, s * m + hsv s
        ≠ slicePos (k + l) p1 i * m + hss j (slicePos (k + l) p1 i) := by
      intro p1 i hcontra
      obtain ⟨heq1, heq2⟩ :=
        slot_eq (hbv s) (hbss j (slicePos (k + l) p1 i)) hcontra
      rw [heq1] at heq2
      exact absurd heq2.symm (hcol j _)
    rw [hstep]
    unfold APBF.insert
    by_cases hro : (afterV k l m g hsv hss j).g ≤ (afterV k l m g hsv hss j).n
    · rw [if_pos hro]
      have hge : g ≤ j % g + 1 := by
        have hro2 := hro
        rw [hstg, hn] at hro2
        exact hro2
      have hroll : j % g + 1 = g := Nat.le_antisymm (Nat.succ_le_of_lt hmod) hge
      have hdiv : (j + 1) / g = j / g + 1 := (div_mod_succ_rollover hg hroll).1
      rw [hdiv] at hsold
      obtain ⟨r, hrd⟩ : ∃ r, j / g = r := ⟨_, rfl⟩
      rw [hrd] at hp hrlt hsold
      have hsp : (afterV k l m g hsv hss j).shiftPrev = k + l - (r + 1) := by
        unfold APBF.shiftPrev
        rw [hp, @pShape k l r (by omega) (by omega), hstk, hstl]
        by_cases hr0 : r = 0
        · rw [if_pos hr0, if_neg (show ¬ (1 ≤ (0 : Nat)) by omega), hr0]
        · rw [if_neg hr0, if_pos (show 1 ≤ k + l - r by omega)]
          omega
      rw [insertAux_bits, shift_m, shift_k, shift_l, hstm, hstk, hstl]
      rw [writeK_other m ((afterV k l m g hsv hss j).shift).p (k + l) (hss j)
        ((afterV k l m g hsv hss j).shift).bits k (s * m + hsv s)
        (fun i _ => hnw _ i)]
      by_cases hsprev : s = k + l - (r + 1)
      · apply shift_bits_inside
        · rw [hsp, hstm, ← hsprev]
          exact Nat.le_add_right _ _
        · rw [hsp, hstm, ← hsprev]
          have := hbv s
          omega
      · have hsold2 : k + l ≤ s + r := by omega
        rw [shift_bits_outside ?_]
        · exact ih hj s hskl (by rw [hrd]; exact hsold2)
        · rw [hsp, hstm]
          have hbvs := hbv s
          rcases Nat.lt_or_ge s (k + l - (r + 1)) with hlt2 | hge2
          · left
            have hmul := Nat.mul_le_mul_right m
              (show s + 1 ≤ k + l - (r + 1) by omega)
            rw [Nat.succ_mul] at hmul
            omega
          · right
            have hgt : k + l - (r + 1) < s := by omega
            have hmul := Nat.mul_le_mul_right m
              (show k + l - (r + 1) + 1 ≤ s by omega)
            rw [Nat.succ_mul] at hmul
            omega
    · rw [if_neg hro]
      have hro2 := hro
      rw [hstg, hn] at hro2
      have hlt : j % g + 1 < g := Nat.not_le.mp hro2
      have hstay : (j + 1) / g = j / g := (div_mod_succ_stay hg hlt).1
      rw [hstay] at hsold
      rw [insertAux_bits, hstm, hstk, hstl]
      rw [writeK_other m (afterV k l m g hsv hss j).p (k + l) (hss j)
        (afterV k l m g hsv hss j).bits k (s * m + hsv s)
        (fun i _ => hnw _ i)]
      exact ih hj s hskl hsold

/-! Evolution of a fresh filter without a tracked value (used for the
rotation-timing and counter-bound claims). -/

theorem freshN_pn (k l m g : Nat) (hss : Nat → Nat → Nat) :
    ∀ j, j ≤ g →
      ((APBF.withHashers k l m g).insertN hss j).p = 0 ∧
      ((APBF.withHashers k l m g).insertN hss j).n = j := by
  intro j
  induction j with
  | zero => intro _; exact ⟨rfl, rfl⟩
  | succ j ih =>
    intro hj1
    obtain ⟨hp, hn⟩ := ih (by omega)
    have hgg : ((APBF.withHashers k l m g).insertN hss j).g = g :=
      insertN_g (APBF.withHashers k l m g) hss j
    have hcond : ¬ (((APBF.withHashers k l m g).insertN hss j).g
        ≤ ((APBF.withHashers k l m g).insertN hss j).n) := by
      rw [hgg, hn]
      omega
    have hstep : (APBF.withHashers k l m g).insertN hss (j + 1)
        = ((APBF.withHashers k l m g).insertN hss j).insert (hss j) := rfl
    constructor
    · rw [hstep, insert_p, if_neg hcond, hp]
    · rw [hstep, insert_n, if_neg hcond, hn]

theorem freshN_nbound (k l m g : Nat) (hss : Nat → Nat → Nat) :
    ∀ j, ((APBF.withHashers k l m g).insertN hss j).n ≤ max g 1 := by
  intro j
  induction j with
  | zero => exact Nat.zero_le _
  | succ j ih =>
    have hgg : ((APBF.withHashers k l m g).insertN hss j).g = g :=
      insertN_g (APBF.withHashers k l m g) hss j
    have hstep : (APBF.withHashers k l m g).insertN hss (j + 1)
        = ((APBF.withHashers k l m g).insertN hss j).insert (hss j) := rfl
    rw [hstep, insert_n]
    by_cases hc : ((APBF.withHashers k l m g).insertN hss j).g
        ≤ ((APBF.withHashers k l m g).insertN hss j).n
    · rw [if_pos hc, Nat.zero_add]
      exact le_max_right g 1
    · rw [if_neg hc]
      rw [hgg] at hc
      have h2 : ((APBF.withHashers k l m g).insertN hss j).n + 1 ≤ g :=
        Nat.not_le.mp hc
      exact le_trans h2 (le_max_left g 1)

/-! In-bounds certification: the checked variants agree with the unchecked
models on every valid state. -/

theorem insert_p_lt (st : APBF) (hs : Nat → Nat) (hkl : 0 < st.k + st.l)
    (hp : st.p < st.k + st.l) : (st.insert hs).p < st.k + st.l := by
  rw [insert_p]
  split
  · rw [shift_p]
    split <;> omega
  · exact hp

theorem writeKC_eq (m p nSlices : Nat) (hs : Nat → Nat) (bits : Nat → Bool)
    (hpos : p < nSlices) (hbs : ∀ q, q < nSlices → hs q < m) :
    ∀ t, t ≤ nSlices →
      writeKC m p nSlices hs bits t = some (writeK m p nSlices hs bits t) := by
  intro t
  induction t with
  | zero => intro _; rfl
  | succ t ih =>
    intro ht1
    have hq : slicePos nSlices p t < nSlices := slicePos_lt hpos (by omega)
    unfold writeKC
    rw [ih (by omega), Option.some_bind, if_pos ⟨hq, hbs _ hq⟩]
    rfl

theorem insertC_eq (st : APBF) (hs : Nat → Nat) (hkl : 0 < st.k + st.l)
    (hp : st.p < st.k + st.l) (hbs : ∀ q, q < st.k + st.l → hs q < st.m) :
    st.insertC hs = some (st.insert hs) := by
  unfold APBF.insertC APBF.insert
  by_cases hro : st.g ≤ st.n
  · rw [if_pos hro, if_pos hro]
    unfold APBF.insertAuxC
    have hshp : (st.shift).p < (st.shift).k + (st.shift).l := by
      show (st.shift).p < st.k + st.l
      rw [shift_p]
      split <;> omega
    rw [writeKC_eq (st.shift).m (st.shift).p ((st.shift).k + (st.shift).l)
      hs (st.shift).bits hshp hbs (st.shift).k (Nat.le_add_right _ _)]
    rfl
  · rw [if_neg hro, if_neg hro]
    unfold APBF.insertAuxC
    rw [writeKC_eq st.m st.p (st.k + st.l) hs st.bits hp hbs st.k
      (Nat.le_add_right _ _)]
    rfl

theorem containsLoopC_eq (st : APBF) (hs : Nat → Nat)
    (hp : st.p < st.k + st.l)
    (hbs : ∀ q, q < st.k + st.l → hs q < st.m) :
    ∀ fuel i pc c, c ≤ i → pc + c < st.k → i - c ≤ st.l →
      containsLoopC st hs fuel (i, pc, c)
        = containsLoop (st.hitFn hs) st.k fuel (i, pc, c) := by
  intro fuel
  induction fuel with
  | zero => intro i pc c _ _ _; rfl
  | succ fuel ih =>
    intro i pc c hci hpck hbase
    have hib : i < st.k + st.l := by omega
    have hq : slicePos (st.k + st.l) st.p i < st.k + st.l := slicePos_lt hp hib
    have hCsome : st.hitC hs i = some (st.hitFn hs i) := by
      unfold APBF.hitC
      rw [if_pos ⟨hq, hbs _ hq⟩]
    rw [containsLoop_succ, scanStep_eq]
    unfold containsLoopC
    rw [hCsome, Option.some_bind]
    by_cases hhit : st.hitFn hs i = true
    · rw [if_pos hhit, if_pos hhit]
      by_cases hret : pc + (c + 1) = st.k
      · rw [if_pos hret, if_pos hret]
      · rw [if_neg hret, if_neg hret]
        exact ih (i + 1) pc (c + 1) (by omega) (by omega) (by omega)
    · rw [if_neg hhit, if_neg hhit]
      by_cases hik : i < st.k
      · rw [if_pos hik, if_pos hik]
      · rw [if_neg hik, if_neg hik]
        exact ih (i - st.k) c 0 (Nat.zero_le _) (by omega) (by omega)

theorem containsOC_eq (st : APBF) (hs : Nat → Nat) (hk : 0 < st.k)
    (hp : st.p < st.k + st.l)
    (hbs : ∀ q, q < st.k + st.l → hs q < st.m) :
    st.containsOC hs = some (st.contains hs) := by
  have he : st.containsOC hs = st.containsO hs :=
    containsLoopC_eq st hs hp hbs st.containsFuel st.l 0 0 (Nat.zero_le _)
      (by omega) (by omega)
  have hsome := containsO_isSome st hs hk
  rcases hO : st.containsO hs with _ | b
  · rw [hO] at hsome
    simp at hsome
  · rw [he, hO]
    unfold APBF.contains
    rw [hO]
    rfl

/-! The Kirsch-Mitzenmacher probe positions. -/

theorem kmHash_get_lt (p h1 h2 i : Nat) (hp : 0 < p) :
    (kmHash p h1 h2).get i < p :=
  Nat.mod_lt _ hp

theorem kmHash_get_formula (p h1 h2 i : Nat)
    (hno : h1 % p + i * (h2 % p) < u64Mod) :
    (kmHash p h1 h2).get i = (h1 % p + i * (h2 % p)) % p := by
  show (h1 % p + i * (h2 % p) % u64Mod) % u64Mod % p = _
  have hmul : i * (h2 % p) % u64Mod = i * (h2 % p) :=
    Nat.mod_eq_of_lt (by omega)
  rw [hmul, Nat.mod_eq_of_lt hno]

/-! The claims. -/

/-- C1: In-window recall.  For every configuration `k, l, m ≥ 1` (any
generation capacity `g`), a value inserted into a freshly constructed
filter is reported present immediately and after any sequence of up to and
including `window() = l * g` further insertions of arbitrary values: no
false negative is possible within the window. -/
theorem c1_in_window_recall (k l m g : Nat) (hsv : Nat → Nat)
    (hss : Nat → Nat → Nat) (j : Nat)
    (hk : 0 < k) (hl : 0 < l) (hm : 0 < m)
    (hbv : ∀ s, hsv s < m)
    (hw : j ≤ (APBF.withHashers k l m g).window) :
    (afterV k l m g hsv hss j).contains hsv = true := by
  have hwin : j ≤ l * g := hw
  by_cases hg0 : g = 0
  · subst hg0
    have hj0 : j = 0 := by
      rw [Nat.mul_zero] at hwin
      omega
    subst hj0
    exact insert_contains_self (APBF.withHashers k l m 0) hsv hk
  · have hg : 0 < g := Nat.pos_of_ne_zero hg0
    have hjlk : j ≤ (l + k) * g :=
      le_trans hwin (Nat.mul_le_mul_right g (by omega))
    obtain ⟨hp, hn⟩ := afterV_inv k l m g hg hsv hss j hjlk
    have hdivle : j / g ≤ l := by
      have h2 : j / g ≤ l * g / g := Nat.div_le_div_right hwin
      rwa [Nat.mul_div_cancel _ hg] at h2
    apply contains_true_of_block _ hsv (j / g)
      (by rw [afterV_k]; exact hk)
      (by rw [afterV_l]; exact hdivle)
    intro t ht
    rw [afterV_k] at ht
    unfold APBF.hitFn
    rw [afterV_k, afterV_l, afterV_m, hp]
    obtain ⟨r, hrd⟩ : ∃ r, j / g = r := ⟨_, rfl⟩
    rw [hrd] at hdivle ⊢
    have hpos : slicePos (k + l) ((k + l - r) % (k + l)) (r + t) = t := by
      rw [@pShape k l r (by omega) (by omega)]
      by_cases hr0 : r = 0
      · rw [if_pos hr0, hr0]
        unfold slicePos
        split <;> omega
      · rw [if_neg hr0]
        unfold slicePos
        split <;> omega
    rw [hpos]
    exact afterV_vbits k l m g hk hl hg hsv hbv hss j hwin t ht

theorem c1_in_window_recall_witness :
    (afterV 1 1 1 0 (fun _ => 0) (fun _ _ => 0) 0).contains (fun _ => 0) = true :=
  c1_in_window_recall 1 1 1 0 (fun _ => 0) (fun _ _ => 0) 0
    (by decide) (by decide) (by decide) (fun _ => Nat.zero_lt_one) (Nat.zero_le _)

/-- C2: Rotation timing / head advancement.  From a freshly constructed
filter, after exactly `g` insertions `p = 0` and `n = g` (no rotation yet,
because the `n ≥ g` check runs at the start of the next insert); after
`g + 1` insertions `p = k + l - 1` and `n = 1`. -/
theorem c2_rotation_timing (k l m g : Nat) (hss : Nat → Nat → Nat)
    (hk : 0 < k) (hl : 0 < l) :
    ((APBF.withHashers k l m g).insertN hss g).p = 0 ∧
    ((APBF.withHashers k l m g).insertN hss g).n = g ∧
    ((APBF.withHashers k l m g).insertN hss (g + 1)).p = k + l - 1 ∧
    ((APBF.withHashers k l m g).insertN hss (g + 1)).n = 1 := by
  obtain ⟨hp, hn⟩ := freshN_pn k l m g hss g (le_refl g)
  have hgg : ((APBF.withHashers k l m g).insertN hss g).g = g :=
    insertN_g (APBF.withHashers k l m g) hss g
  have hcond : ((APBF.withHashers k l m g).insertN hss g).g
      ≤ ((APBF.withHashers k l m g).insertN hss g).n := by
    rw [hgg, hn]
  have hstep : (APBF.withHashers k l m g).insertN hss (g + 1)
      = ((APBF.withHashers k l m g).insertN hss g).insert (hss g) := rfl
  refine ⟨hp, hn, ?_, ?_⟩
  · rw [hstep, insert_p, if_pos hcond, shift_p, if_pos hp, insertN_l, insertN_k]
    show l + k - 1 = k + l - 1
    omega
  · rw [hstep, insert_n, if_pos hcond]

theorem c2_rotation_timing_witness :
    ((APBF.withHashers 1 1 2 1).insertN (fun _ _ => 0) 1).p = 0 ∧
    ((APBF.withHashers 1 1 2 1).insertN (fun _ _ => 0) 1).n = 1 ∧
    ((APBF.withHashers 1 1 2 1).insertN (fun _ _ => 0) 2).p = 1 + 1 - 1 ∧
    ((APBF.withHashers 1 1 2 1).insertN (fun _ _ => 0) 2).n = 1 :=
  c2_rotation_timing 1 1 2 1 (fun _ _ => 0) (by decide) (by decide)

/-- C3 counterexample: with `k = 1, l = 1, m = 2` the source computes
`g = floor(2 * ln 2) = 1`; one insert into the fresh filter leaves
`n = 1 = g`, so the claimed strict bound `n < g` after insert is false. -/
theorem c3_counterexample :
    ¬ (((APBF.withHashers 1 1 2 1).insert (fun _ => 0)).n
        < ((APBF.withHashers 1 1 2 1).insert (fun _ => 0)).g) := by
  decide

/-- C3 (amended): for every filter state reachable through the public API,
immediately after any `insert` returns the counter satisfies
`1 ≤ n ≤ max g 1` (so `n ≤ g` whenever `g ≥ 1`); `n = g` does occur — the
generation is then full and the next insert rotates — so `n < g` fails. -/
theorem c3_counter_bound (k l m g : Nat) (hss : Nat → Nat → Nat) (j : Nat)
    (hj : 1 ≤ j) :
    1 ≤ ((APBF.withHashers k l m g).insertN hss j).n ∧
    ((APBF.withHashers k l m g).insertN hss j).n ≤ max g 1 := by
  constructor
  · obtain ⟨j2, rfl⟩ : ∃ j2, j = j2 + 1 := ⟨j - 1, by omega⟩
    have hstep : (APBF.withHashers k l m g).insertN hss (j2 + 1)
        = ((APBF.withHashers k l m g).insertN hss j2).insert (hss j2) := rfl
    rw [hstep, insert_n]
    exact Nat.succ_le_succ (Nat.zero_le _)
  · exact freshN_nbound k l m g hss j

theorem c3_counter_bound_witness :
    1 ≤ ((APBF.withHashers 1 1 2 1).insertN (fun _ _ => 0) 1).n ∧
    ((APBF.withHashers 1 1 2 1).insertN (fun _ _ => 0) 1).n ≤ max 1 1 :=
  c3_counter_bound 1 1 2 1 (fun _ _ => 0) 1 (by decide)

/-- Bits of a fresh filter after a single insert (for `g ≥ 1`, so no
rotation precedes the writes): exactly the `k` probe positions
`t * m + hsv t` for `t < k`. -/
theorem freshInsert_bits (k l m g : Nat) (hg : 0 < g) (hsv : Nat → Nat)
    (q : Nat) :
    ((APBF.withHashers k l m g).insert hsv).bits q = true
      ↔ ∃ t, t < k ∧ q = t * m + hsv t := by
  have hins : ((APBF.withHashers k l m g).insert hsv).bits
      = writeK m 0 (k + l) hsv (fun _ => false) k := by
    unfold APBF.insert
    rw [if_neg (show ¬ ((APBF.withHashers k l m g).g ≤ (APBF.withHashers k l m g).n)
      from by show ¬ (g ≤ 0); omega)]
    rfl
  constructor
  · intro htrue
    by_contra hno
    push_neg at hno
    rw [hins] at htrue
    rw [writeK_other m 0 (k + l) hsv (fun _ => false) k q ?_] at htrue
    · exact absurd htrue (by simp)
    · intro i hi
      have hsp : slicePos (k + l) 0 i = i := by
        unfold slicePos
        split <;> omega
      rw [hsp]
      exact hno i hi
  · rintro ⟨t, ht, rfl⟩
    rw [hins]
    have hsp : slicePos (k + l) 0 t = t := by
      unfold slicePos
      split <;> omega
    have hw := writeK_hit m 0 (k + l) hsv (fun _ => false) k t ht
    rw [hsp] at hw
    exact hw

/-- C4 (amended): Fresh-insert footprint, provided the derived generation
capacity `g = floor(m ln 2 / k)` is at least 1.  Then after one insert
exactly `k` bits are set: one in each of the physical slices `[0, k)` and
none in the remaining `l` slices.  (When `g = 0`, as at `k = l = m = 1`,
the first insert rotates before writing and the bits land in slices
`{k+l-1} ∪ [0, k-1)` instead — see the counterexample.) -/
theorem c4_fresh_footprint (k l m g : Nat) (hsv : Nat → Nat)
    (hk : 0 < k) (hl : 0 < l) (hm : 0 < m) (hg : 0 < g)
    (hbv : ∀ s, hsv s < m) :
    (∀ s, s < k → ((APBF.withHashers k l m g).insert hsv).sliceOnes s = 1) ∧
    (∀ s, k ≤ s → s < k + l →
      ((APBF.withHashers k l m g).insert hsv).sliceOnes s = 0) ∧
    ((APBF.withHashers k l m g).insert hsv).totalOnes = k := by
  have hbits := freshInsert_bits k l m g hg hsv
  have hmm : ((APBF.withHashers k l m g).insert hsv).m = m :=
    insert_m (APBF.withHashers k l m g) hsv
  refine ⟨?_, ?_, ?_⟩
  · intro s hs
    unfold APBF.sliceOnes
    rw [hmm]
    have hset : (Finset.range m).filter
        (fun h => ((APBF.withHashers k l m g).insert hsv).bits (s * m + h) = true)
        = {hsv s} := by
      apply Finset.ext
      intro h
      simp only [Finset.mem_filter, Finset.mem_range, Finset.mem_singleton]
      constructor
      · rintro ⟨hhm, hb⟩
        obtain ⟨t, htk, heq⟩ := (hbits _).mp hb
        obtain ⟨h1, h2⟩ := slot_eq hhm (hbv t) heq
        rw [h1]
        exact h2
      · intro hh
        subst hh
        exact ⟨hbv s, (hbits _).mpr ⟨s, hs, rfl⟩⟩
    rw [hset, Finset.card_singleton]
  · intro s hks hskl
    unfold APBF.sliceOnes
    rw [hmm]
    have hset : (Finset.range m).filter
        (fun h => ((APBF.withHashers k l m g).insert hsv).bits (s * m + h) = true)
        = (∅ : Finset Nat) := by
      apply Finset.ext
      intro h
      simp only [Finset.mem_filter, Finset.mem_range, Finset.not_mem_empty,
        iff_false, not_and]
      intro hhm hb
      obtain ⟨t, htk, heq⟩ := (hbits _).mp hb
      obtain ⟨h1, h2⟩ := slot_eq hhm (hbv t) heq
      omega
    rw [hset, Finset.card_empty]
  · unfold APBF.totalOnes
    rw [hmm, insert_k, insert_l]
    show ((Finset.range ((k + l) * m)).filter
      (fun q => ((APBF.withHashers k l m g).insert hsv).bits q = true)).card = k
    have hset : (Finset.range ((k + l) * m)).filter
        (fun q => ((APBF.withHashers k l m g).insert hsv).bits q = true)
        = (Finset.range k).image (fun t => t * m + hsv t) := by
      apply Finset.ext
      intro q
      simp only [Finset.mem_filter, Finset.mem_range, Finset.mem_image]
      constructor
      · rintro ⟨hq, hb⟩
        obtain ⟨t, htk, heq⟩ := (hbits q).mp hb
        exact ⟨t, htk, heq.symm⟩
      · rintro ⟨t, htk, rfl⟩
        refine ⟨?_, (hbits _).mpr ⟨t, htk, rfl⟩⟩
        have h1 : t * m + hsv t < (t + 1) * m := by
          have := hbv t
          rw [Nat.succ_mul]
          omega
        have h2 : (t + 1) * m ≤ (k + l) * m :=
          Nat.mul_le_mul_right m (by omega)
        omega
    rw [hset,
      Finset.card_image_of_injOn (fun a _ b _ hab => (slot_eq (hbv a) (hbv b) hab).1),
      Finset.card_range]

theorem c4_fresh_footprint_witness :
    (∀ s, s < 1 → ((APBF.withHashers 1 1 1 1).insert (fun _ => 0)).sliceOnes s = 1) ∧
    (∀ s, 1 ≤ s → s < 1 + 1 →
      ((APBF.withHashers 1 1 1 1).insert (fun _ => 0)).sliceOnes s = 0) ∧
    ((APBF.withHashers 1 1 1 1).insert (fun _ => 0)).totalOnes = 1 :=
  c4_fresh_footprint 1 1 1 1 (fun _ => 0) (by decide) (by decide) (by decide)
    (by decide) (fun _ => Nat.zero_lt_one)

/-- C4 counterexample: for `k = l = m = 1` the source computes
`g = floor(1 * ln 2 / 1) = 0`, so the very first insert rotates before
writing: the bit lands in physical slice `k + l - 1 = 1` and slice 0 gets
no bit, refuting "each of the physical slices `0..k-1` contains exactly
one set bit" for that configuration. -/
theorem c4_counterexample :
    ¬ (((APBF.withHashers 1 1 1 0).insert (fun _ => 0)).sliceOnes 0 = 1) ∧
    ((APBF.withHashers 1 1 1 0).insert (fun _ => 0)).sliceOnes 0 = 0 ∧
    ((APBF.withHashers 1 1 1 0).insert (fun _ => 0)).sliceOnes 1 = 1 := by
  decide

/-- C5: Rotation procedure.  `shift` computes
`prev = (p + n_slices - 1) % n_slices` — correctly also when `p = 0` —
which is the physical index of the oldest logical slice `n_slices - 1`;
it clears all `m` bits of that slice, leaves every other bit unchanged,
sets `p` to `prev` and resets `n` to 0. -/
theorem c5_rotation_procedure (st : APBF) (hp : st.p < st.k + st.l)
    (hkl : 0 < st.k + st.l) :
    (st.shift).p = (st.p + (st.k + st.l) - 1) % (st.k + st.l) ∧
    (st.shift).n = 0 ∧
    slicePos (st.k + st.l) st.p (st.k + st.l - 1)
      = (st.p + (st.k + st.l) - 1) % (st.k + st.l) ∧
    (∀ h, h < st.m →
      (st.shift).bits
        ((st.p + (st.k + st.l) - 1) % (st.k + st.l) * st.m + h) = false) ∧
    (∀ q, q < (st.p + (st.k + st.l) - 1) % (st.k + st.l) * st.m
        ∨ (st.p + (st.k + st.l) - 1) % (st.k + st.l) * st.m + st.m ≤ q →
      (st.shift).bits q = st.bits q) := by
  have hprev : st.shiftPrev = (st.p + (st.k + st.l) - 1) % (st.k + st.l) := by
    unfold APBF.shiftPrev
    by_cases hp0 : 1 ≤ st.p
    · rw [if_pos hp0]
      have hsplit : st.p + (st.k + st.l) - 1 = (st.p - 1) + (st.k + st.l) := by
        omega
      rw [hsplit, Nat.add_mod_right,
        Nat.mod_eq_of_lt (show st.p - 1 < st.k + st.l by omega)]
    · rw [if_neg hp0]
      have hp00 : st.p = 0 := by omega
      rw [hp00, Nat.zero_add]
      exact (Nat.mod_eq_of_lt (by omega)).symm
  refine ⟨?_, rfl, ?_, ?_, ?_⟩
  · rw [← hprev, shift_p]
    unfold APBF.shiftPrev
    by_cases h0 : st.p = 0
    · rw [if_pos h0, if_neg (by omega)]
      omega
    · rw [if_neg h0, if_pos (by omega)]
  · rw [← hprev]
    unfold slicePos APBF.shiftPrev
    by_cases h0 : 1 ≤ st.p
    · rw [if_pos (by omega), if_pos h0]
      omega
    · rw [if_neg (by omega), if_neg h0]
      omega
  · intro h hh
    rw [← hprev]
    exact shift_bits_inside (Nat.le_add_right _ _) (by omega)
  · intro q hq
    rw [← hprev] at hq
    exact shift_bits_outside hq

theorem c5_rotation_procedure_witness :
    ((APBF.withHashers 1 1 1 0).shift).p = (0 + (1 + 1) - 1) % (1 + 1) ∧
    ((APBF.withHashers 1 1 1 0).shift).n = 0 ∧
    slicePos (1 + 1) 0 (1 + 1 - 1) = (0 + (1 + 1) - 1) % (1 + 1) ∧
    (∀ h, h < 1 →
      ((APBF.withHashers 1 1 1 0).shift).bits
        ((0 + (1 + 1) - 1) % (1 + 1) * 1 + h) = false) ∧
    (∀ q, q < (0 + (1 + 1) - 1) % (1 + 1) * 1
        ∨ (0 + (1 + 1) - 1) % (1 + 1) * 1 + 1 ≤ q →
      ((APBF.withHashers 1 1 1 0).shift).bits q
        = (APBF.withHashers 1 1 1 0).bits q) :=
  c5_rotation_procedure (APBF.withHashers 1 1 1 0) (by decide) (by decide)

/-- C6 (amended): Kirsch-Mitzenmacher probe positions.  With
`x1 = H1(v) mod m` and `x2 = H2(v) mod m`, the probe `at(i)` always lies
in `[0, m)` and is total; it equals `(x1 + i * x2) mod m` whenever
`x1 + i * x2 < 2^64` (so for every slice index the engine passes under
realistic parameters), but for larger `i` the `u64` arithmetic wraps and
the identity fails — see the counterexample. -/
theorem c6_km_probe (p h1 h2 i : Nat) (hp : 0 < p) :
    (kmHash p h1 h2).get i < p ∧
    (h1 % p + i * (h2 % p) < u64Mod →
      (kmHash p h1 h2).get i = (h1 % p + i * (h2 % p)) % p) :=
  ⟨kmHash_get_lt p h1 h2 i hp, kmHash_get_formula p h1 h2 i⟩

theorem c6_km_probe_witness :
    (kmHash 3 0 2).get 5 < 3 ∧
    (0 % 3 + 5 * (2 % 3) < u64Mod →
      (kmHash 3 0 2).get 5 = (0 % 3 + 5 * (2 % 3)) % 3) :=
  c6_km_probe 3 0 2 5 (by decide)

/-- C6 counterexample: with `m = 3`, `H1(v) = 0`, `H2(v) = 2` (so
`x1 = 0`, `x2 = 2`) and index `i = 2^63`, the code's wrapping `u64`
computation gives `((0 + 2^63 * 2) mod 2^64) mod 3 = 0`, while
`(x1 + i * x2) mod 3 = 2^64 mod 3 = 1`: the claimed identity
`at(i) = (x1 + i * x2) mod m` fails for this non-negative index. -/
theorem c6_counterexample :
    ¬ ((kmHash 3 0 2).get (2 ^ 63)
        = ((kmHash 3 0 2).x1 + 2 ^ 63 * (kmHash 3 0 2).x2) % 3) := by
  decide

/-- C7: Out-of-window forgetting.  After `window + slack = (l + k) * g`
further insertions following the tracked insert, `contains` returns
`false` provided the later insertions did not themselves set bits forming
the pattern of `k` consecutive hits on the tracked value's probe
positions; in particular, when the later insertions never write the
tracked value's exact bit positions, every physical slice has been
cleared by a rotation since the tracked insert, so all of its probe bits
read 0. -/
theorem c7_out_of_window (k l m g : Nat) (hsv : Nat → Nat)
    (hss : Nat → Nat → Nat)
    (hk : 0 < k) (hl : 0 < l) (hm : 0 < m) (hg : 0 < g)
    (hbv : ∀ s, hsv s < m) (hbss : ∀ t s, hss t s < m)
    (hpat : ∀ a, a ≤ l → ∃ t, t < k ∧
      (afterV k l m g hsv hss
        ((APBF.withHashers k l m g).window
          + (APBF.withHashers k l m g).slack)).hitFn hsv (a + t) = false) :
    (afterV k l m g hsv hss
      ((APBF.withHashers k l m g).window
        + (APBF.withHashers k l m g).slack)).contains hsv = false ∧
    ((∀ t s, hss t s ≠ hsv s) →
      ∀ s, s < k + l →
        (afterV k l m g hsv hss
          ((APBF.withHashers k l m g).window
            + (APBF.withHashers k l m g).slack)).bits (s * m + hsv s) = false) := by
  have hN : (APBF.withHashers k l m g).window + (APBF.withHashers k l m g).slack
      = (l + k) * g := by
    show l * g + k * g = (l + k) * g
    rw [Nat.add_mul]
  constructor
  · cases hcon : (afterV k l m g hsv hss
        ((APBF.withHashers k l m g).window
          + (APBF.withHashers k l m g).slack)).contains hsv with
    | false => rfl
    | true =>
      exfalso
      obtain ⟨a, hal, hblock⟩ := contains_sound _ hsv
        (by rw [afterV_k]; exact hk) hcon
      rw [afterV_l] at hal
      obtain ⟨t, htk, hmiss⟩ := hpat a hal
      have hth := hblock t (by rw [afterV_k]; exact htk)
      rw [hth] at hmiss
      exact Bool.noConfusion hmiss
  · intro hcol s hskl
    apply afterV_cleared k l m g hl hg hsv hbv hss hbss hcol _
      (Nat.le_of_eq hN) s hskl
    rw [hN, Nat.mul_div_cancel _ hg]
    omega

theorem c7_out_of_window_witness :
    (afterV 1 1 2 1 (fun _ => 0) (fun _ _ => 1)
      ((APBF.withHashers 1 1 2 1).window
        + (APBF.withHashers 1 1 2 1).slack)).contains (fun _ => 0) = false ∧
    (∀ s, s < 1 + 1 →
      (afterV 1 1 2 1 (fun _ => 0) (fun _ _ => 1)
        ((APBF.withHashers 1 1 2 1).window
          + (APBF.withHashers 1 1 2 1).slack)).bits (s * 2 + 0) = false) := by
  have h := c7_out_of_window 1 1 2 1 (fun _ => 0) (fun _ _ => 1)
    (by decide) (by decide) (by decide) (by decide)
    (fun _ => Nat.zero_lt_two) (fun _ _ => Nat.one_lt_two) (by decide)
  exact ⟨h.1, h.2 (fun _ _ => Nat.one_ne_zero)⟩

/-- C8 (amended): Termination of the membership scan.  For every filter
state with `k ≥ 1` (any bit-array contents, any `p`) and every value, the
`contains` loop halts after finitely many iterations returning `true` or
`false`: each iteration either returns, advances the cursor by one, or
decreases it by `k` while saving the run length into `prev_count`, and
`prev_count + count < k` is preserved at every continuing iteration (the
measure `(k+1)*(i - count) + (k - count)` strictly decreases).  The
original claim's "`prev_count` monotonically non-decreases" is false —
see the counterexample. -/
theorem c8_scan_halts (st : APBF) (hs : Nat → Nat) (hk : 0 < st.k) :
    (st.containsO hs).isSome = true ∧
    (∀ i pc c i2 pc2 c2, pc + c < st.k →
      scanStep (st.hitFn hs) st.k (i, pc, c) = Sum.inl (i2, pc2, c2) →
      pc2 + c2 < st.k ∧ (i2 = i + 1 ∨ i2 + st.k = i)) := by
  constructor
  · exact containsO_isSome st hs hk
  · intro i pc c i2 pc2 c2 hpc hstep
    rw [scanStep_eq] at hstep
    by_cases hhit : st.hitFn hs i = true
    · rw [if_pos hhit] at hstep
      by_cases hret : pc + (c + 1) = st.k
      · rw [if_pos hret] at hstep
        exact absurd hstep (by simp)
      · rw [if_neg hret] at hstep
        simp only [Sum.inl.injEq, Prod.mk.injEq] at hstep
        obtain ⟨h1, h2, h3⟩ := hstep
        constructor
        · omega
        · left
          omega
    · rw [if_neg hhit] at hstep
      by_cases hik : i < st.k
      · rw [if_pos hik] at hstep
        exact absurd hstep (by simp)
      · rw [if_neg hik] at hstep
        simp only [Sum.inl.injEq, Prod.mk.injEq] at hstep
        obtain ⟨h1, h2, h3⟩ := hstep
        constructor
        · omega
        · right
          omega

theorem c8_scan_halts_witness :
    ((APBF.withHashers 1 1 1 0).containsO (fun _ => 0)).isSome = true ∧
    (∀ i pc c i2 pc2 c2, pc + c < (APBF.withHashers 1 1 1 0).k →
      scanStep ((APBF.withHashers 1 1 1 0).hitFn (fun _ => 0))
        (APBF.withHashers 1 1 1 0).k (i, pc, c) = Sum.inl (i2, pc2, c2) →
      pc2 + c2 < (APBF.withHashers 1 1 1 0).k
        ∧ (i2 = i + 1 ∨ i2 + (APBF.withHashers 1 1 1 0).k = i)) :=
  c8_scan_halts (APBF.withHashers 1 1 1 0) (fun _ => 0) (by decide)

/-- C8 counterexample: on the state `scanEx` (`k = 3`, `l = 7`, `m = 1`,
`p = 0`, probe bits of slices 7 and 8 set) the scan starts at
`(i, prev_count, count) = (7, 0, 0)`; after two hits and a miss it is at
`(6, 2, 0)` with `prev_count = 2`, and the next iteration (a second miss)
moves to `(3, 0, 0)`: `prev_count` drops from 2 to 0 in mid-scan, so it
is not monotonically non-decreasing. -/
theorem c8_counterexample :
    scanStep (scanEx.hitFn (fun _ => 0)) scanEx.k (scanEx.l, 0, 0)
        = Sum.inl (8, 0, 1) ∧
    scanStep (scanEx.hitFn (fun _ => 0)) scanEx.k (8, 0, 1)
        = Sum.inl (9, 0, 2) ∧
    scanStep (scanEx.hitFn (fun _ => 0)) scanEx.k (9, 0, 2)
        = Sum.inl (6, 2, 0) ∧
    scanStep (scanEx.hitFn (fun _ => 0)) scanEx.k (6, 2, 0)
        = Sum.inl (3, 0, 0) ∧
    ¬ (2 ≤ 0) := by
  decide

/-- C9: Construction-only failure.  Checked construction succeeds exactly
when `k ≥ 1`, `l ≥ 1` and `m ≥ 1` (the three `debug_assert!`s), in which
case it returns precisely the fresh filter; and no runtime operation can
fail: in particular on every reachable state of a valid filter the
membership scan finishes with a Boolean result. -/
theorem c9_construction_failure (k l m g : Nat) :
    ((APBF.withHashersChecked k l m g).isSome = true
      ↔ 0 < k ∧ 0 < l ∧ 0 < m) ∧
    (0 < k ∧ 0 < l ∧ 0 < m →
      APBF.withHashersChecked k l m g = some (APBF.withHashers k l m g)) ∧
    (0 < k → ∀ hss j hs,
      (((APBF.withHashers k l m g).insertN hss j).containsO hs).isSome = true) := by
  refine ⟨?_, ?_, ?_⟩
  · unfold APBF.withHashersChecked
    by_cases hc : 0 < k ∧ 0 < l ∧ 0 < m
    · rw [if_pos hc]
      simp [hc]
    · rw [if_neg hc]
      simp [hc]
  · intro hc
    unfold APBF.withHashersChecked
    rw [if_pos hc]
  · intro hk hss j hs
    apply containsO_isSome
    rw [insertN_k]
    exact hk

theorem c9_construction_failure_witness :
    APBF.withHashersChecked 1 1 1 0 = some (APBF.withHashers 1 1 1 0) ∧
    (((APBF.withHashers 1 1 1 0).insertN (fun _ _ => 0) 2).containsO
      (fun _ => 0)).isSome = true :=
  ⟨(c9_construction_failure 1 1 1 0).2.1 (by decide),
   (c9_construction_failure 1 1 1 0).2.2 (by decide) (fun _ _ => 0) 2
     (fun _ => 0)⟩

/-- C10: In-bounds access.  Every slice index computed as `p + i` with one
conditional subtraction of `n_slices` stays below `n_slices` (for `p` and
`i` below `n_slices`); `p < n_slices` holds for the fresh filter and is
preserved by `insert`; on any such state, with a probe sequence bounded
by `m` (as the default hash family guarantees, last conjunct), the
bounds-checked models of `insert` and `contains` — in which any
out-of-range slice index or bit offset is a panic (`none`) — agree with
the unchecked models, so no access in `insert` or `contains` goes out of
bounds or panics. -/
theorem c10_in_bounds :
    (∀ nSlices p i : Nat, p < nSlices → i < nSlices →
      slicePos nSlices p i < nSlices) ∧
    (∀ k l m g : Nat, 0 < k + l → (APBF.withHashers k l m g).p < k + l) ∧
    (∀ (st : APBF) (hs : Nat → Nat), 0 < st.k + st.l → st.p < st.k + st.l →
      (st.insert hs).p < st.k + st.l) ∧
    (∀ (st : APBF) (hs : Nat → Nat), 0 < st.k + st.l → st.p < st.k + st.l →
      (∀ q, q < st.k + st.l → hs q < st.m) →
      st.insertC hs = some (st.insert hs)) ∧
    (∀ (st : APBF) (hs : Nat → Nat), 0 < st.k → st.p < st.k + st.l →
      (∀ q, q < st.k + st.l → hs q < st.m) →
      st.containsOC hs = some (st.contains hs)) ∧
    (∀ m h1 h2 i : Nat, 0 < m → (kmHash m h1 h2).get i < m) := by
  refine ⟨?_, ?_, ?_, ?_, ?_, ?_⟩
  · intro nSlices p i hp hi
    exact slicePos_lt hp hi
  · intro k l m g h
    exact h
  · intro st hs h1 h2
    exact insert_p_lt st hs h1 h2
  · intro st hs h1 h2 h3
    exact insertC_eq st hs h1 h2 h3
  · intro st hs h1 h2 h3
    exact containsOC_eq st hs h1 h2 h3
  · intro m h1 h2 i hm
    exact kmHash_get_lt m h1 h2 i hm

theorem c10_in_bounds_witness :
    slicePos 2 0 1 < 2 ∧
    (APBF.withHashers 1 1 1 0).p < 1 + 1 ∧
    ((APBF.withHashers 1 1 1 0).insert (fun _ => 0)).p < 1 + 1 ∧
    (APBF.withHashers 1 1 1 0).insertC (fun _ => 0)
      = some ((APBF.withHashers 1 1 1 0).insert (fun _ => 0)) ∧
    (APBF.withHashers 1 1 1 0).containsOC (fun _ => 0)
      = some ((APBF.withHashers 1 1 1 0).contains (fun _ => 0)) ∧
    (kmHash 1 0 0).get 0 < 1 :=
  ⟨c10_in_bounds.1 2 0 1 (by decide) (by decide),
   c10_in_bounds.2.1 1 1 1 0 (by decide),
   c10_in_bounds.2.2.1 (APBF.withHashers 1 1 1 0) (fun _ => 0) (by decide)
     (by decide),
   c10_in_bounds.2.2.2.1 (APBF.withHashers 1 1 1 0) (fun _ => 0) (by decide)
     (by decide) (fun _ _ => Nat.zero_lt_one),
   c10_in_bounds.2.2.2.2.1 (APBF.withHashers 1 1 1 0) (fun _ => 0) (by decide)
     (by decide) (fun _ _ => Nat.zero_lt_one),
   c10_in_bounds.2.2.2.2.2 1 0 0 0 (by decide)⟩

end Apbf
